import Mathlib

/-!
Verification development for the TDASpring23 teaching-notebook repository.

The repository consists of three notebooks:
* `02-StabilityOfClusteringAndBarcodes`: defines the single-linkage
  hierarchical clustering (SLHC) metric `u_X` on a finite metric space and
  states its ultrametric property and Gromov-Hausdorff stability; the code
  cells build point sets, distance matrices (`pairwise_distances`, a
  hand-written 4 by 4 matrix) and call scipy `linkage`/`dendrogram`.
* `06-VectorizingPersistenceDiagrams`: synthetic point-cloud generators
  (`sample_spherical`, `noisy_sphere`, `noise`), a noise-vs-circle dataset,
  persistence images via persim `PersImage`, and a CSV barcode loader for
  districting-plan diagrams.
* the Takens-embedding notebook: `make_gravitational_waves` with its inner
  helper `padrand`.

Each section below shallowly embeds the relevant definitions and proves the
properties claimed of them.  Real-number-valued numpy data is modelled with
`ℝ`; numpy arrays are modelled as Lean lists (value level) or as dimension
lists (shape level); randomness is modelled by explicit oracle arguments.

The file is organised as definitions first, then the lemmas and theorems.
-/

/-! ## Definitions: single-linkage hierarchical clustering (notebook 02)

The notebook defines, for a finite metric space `(X, d_X)`,
`u_X(x,x') = inf { eps > 0 | there is an eps-chain joining x to x' }`,
where an eps-chain is a sequence `x = x_1, ..., x_n = x'` with
`d_X(x_i, x_{i+1}) <= eps` for all `i`.  We embed `X` as `Fin k` and a
metric as a function `d : Fin k → Fin k → ℝ` satisfying the metric axioms.
-/

namespace SLHC

/-- An `ε`-chain joining `x` to `y`: a nonempty list starting at `x`,
ending at `y`, with consecutive distances at most `ε`.  This is a direct
transcription of the eps-chain definition in notebook 02. -/
def epsChain {k : ℕ} (d : Fin k → Fin k → ℝ) (ε : ℝ) (x y : Fin k)
    (l : List (Fin k)) : Prop :=
  l.head? = some x ∧ l.getLast? = some y ∧ l.Chain' (fun a b => d a b ≤ ε)

/-- The set of positive `ε` for which an `ε`-chain joins `x` to `y`. -/
def chainSet {k : ℕ} (d : Fin k → Fin k → ℝ) (x y : Fin k) : Set ℝ :=
  {ε : ℝ | 0 < ε ∧ ∃ l, epsChain d ε x y l}

/-- The SLHC metric of notebook 02: the infimum of the set of chain levels. -/
noncomputable def u {k : ℕ} (d : Fin k → Fin k → ℝ) (x y : Fin k) : ℝ :=
  sInf (chainSet d x y)

/-- A correspondence between `Fin m` and `Fin n`: a relation that is total
in both directions.  This is the standard notion used in the
correspondence formulation of Gromov-Hausdorff distance for finite metric
spaces. -/
def isCorr {m n : ℕ} (R : Finset (Fin m × Fin n)) : Prop :=
  (∀ x : Fin m, ∃ y, (x, y) ∈ R) ∧ (∀ y : Fin n, ∃ x, (x, y) ∈ R)

/-- Modelled from the spec: the definition of Gromov-Hausdorff distance is
not in the repository's sources (notebook 02 invokes the notion "defined in
lecture" when stating the Carlsson-Memoli stability theorem).  We use the
standard characterisation for finite metric spaces: `disSet dX dY` is the
set of nonnegative `e` such that some correspondence `R` has distortion at
most `2 * e`, i.e. `|dX x x' - dY y y'| ≤ 2 * e` whenever `(x, y)` and
`(x', y')` lie in `R`. -/
def disSet {m n : ℕ} (dX : Fin m → Fin m → ℝ) (dY : Fin n → Fin n → ℝ) :
    Set ℝ :=
  {e : ℝ | 0 ≤ e ∧ ∃ R : Finset (Fin m × Fin n), isCorr R ∧
    ∀ p ∈ R, ∀ q ∈ R, |dX p.1 q.1 - dY p.2 q.2| ≤ 2 * e}

/-- Modelled from the spec: Gromov-Hausdorff distance between two finite
metric spaces, as half the infimal correspondence distortion (here: the
infimum of the `e` admitting a correspondence of distortion `≤ 2e`). -/
noncomputable def dGH {m n : ℕ} (dX : Fin m → Fin m → ℝ)
    (dY : Fin n → Fin n → ℝ) : ℝ :=
  sInf (disSet dX dY)

end SLHC

/-! ## Definitions: numpy shape semantics for the synthetic generators
(notebook 06, Part 1)

`sample_spherical`, `noisy_sphere` and `noise` build arrays by elementwise
numpy operations, so the array shapes follow numpy's broadcasting rules.
We model shapes as lists of dimensions and embed the three generators at
the shape level. -/

namespace NpShape

/-- numpy broadcasting of a single dimension pair: equal dimensions agree,
a dimension of 1 stretches, anything else is an error. -/
def bcastDim (a b : ℕ) : Option ℕ :=
  if a = b then some a else if a = 1 then some b
  else if b = 1 then some a else none

/-- Broadcasting of two reversed shape lists (trailing dimensions first);
a missing dimension is treated as 1. -/
def broadcastRev : List ℕ → List ℕ → Option (List ℕ)
  | [], l => some l
  | l, [] => some l
  | a :: as, b :: bs =>
    match bcastDim a b, broadcastRev as bs with
    | some c, some rest => some (c :: rest)
    | _, _ => none

/-- numpy broadcasting of two shapes: align the trailing dimensions. -/
def broadcastShapes (s t : List ℕ) : Option (List ℕ) :=
  (broadcastRev s.reverse t.reverse).map List.reverse

/-- `np.transpose` reverses the axis order. -/
def transpose (s : List ℕ) : List ℕ := s.reverse

/-- Shape of `sample_spherical(npoints, scale, ndim)`:
`vec = np.random.randn(ndim, npoints)` has shape `(ndim, npoints)`;
`vec /= np.linalg.norm(vec, axis=0)` divides by an `(npoints,)`-shaped
array (norm reduces away axis 0), broadcast against `vec`; finally
`vec = scale * np.transpose(vec)` transposes (scalar multiplication keeps
the shape). -/
def sample_spherical (npoints ndim : ℕ) : Option (List ℕ) :=
  match broadcastShapes [ndim, npoints] ([ndim, npoints].drop 1) with
  | none => none
  | some vecShape => some (transpose vecShape)

/-- Shape of `noisy_sphere(npoints, scale, noiseLevel, offset, ndim)`:
`sample_spherical(npoints, scale, ndim)
 + scale*noiseLevel*np.random.random((npoints, ndim))
 + offset*np.ones(ndim)`, two broadcast additions (the scalar factors do
not affect shapes). -/
def noisy_sphere (npoints ndim : ℕ) : Option (List ℕ) :=
  match sample_spherical npoints ndim with
  | none => none
  | some s =>
    match broadcastShapes s [npoints, ndim] with
    | none => none
    | some s2 => broadcastShapes s2 [ndim]

/-- Shape of `noise(N, scale, ndim)`: the body is
`scale * np.random.random((N, 2))`, whose shape is `(N, 2)` — the `ndim`
parameter is not used by the body. -/
def noise (N : ℕ) (scale : ℚ) (ndim : ℕ) : List ℕ := [N, 2]

end NpShape

/-! ## Definitions: distance matrices (notebook 02, Example 3) -/

namespace DistMat

/-- `sklearn.metrics.pairwise_distances` with the default Euclidean metric:
entry `(i, j)` is the Euclidean distance between rows `i` and `j` of `X`. -/
noncomputable def pairwise_distances {N k : ℕ} (X : Fin N → Fin k → ℝ) :
    Fin N → Fin N → ℝ :=
  fun i j => Real.sqrt (∑ t, (X i t - X j t) ^ 2)

/-- The hand-written non-Euclidean distance matrix `D` of notebook 02. -/
def D : Fin 4 → Fin 4 → ℚ :=
  ![![0, 1, 2, 3], ![1, 0, 3, 4], ![2, 3, 0, 5], ![3, 4, 5, 0]]

end DistMat

/-! ## Definitions: the districting-plan CSV barcode loader (notebook 06,
Part 2)

`np.genfromtxt` is modelled by an oracle `read` mapping a file name to its
parsed numeric contents, a matrix accessed as `row → column → ℝ`. -/

namespace Districting

/-- The file name built in the loader loop: `"data/50biased_" + str(j) + ".csv"`. -/
def fileName (j : ℕ) : String := "data/50biased_" ++ toString j ++ ".csv"

/-- The loader loop: `for j in range(6): barcodes.append(np.genfromtxt(fileName(j)))`. -/
def barcodes (read : String → ℕ → ℕ → ℝ) : List (ℕ → ℕ → ℝ) :=
  (List.range 6).map (fun j => read (fileName j))

/-- Democrat-biased barcodes: for `j in range(1, 243)`, the barcode collects
`barcodes[k][j, 1:3]` (columns 1 and 2 of row `j`) for `k in range(6)`. -/
def dem_barcodes (read : String → ℕ → ℕ → ℝ) : List (List (ℝ × ℝ)) :=
  (List.range' 1 242).map
    (fun j => (barcodes read).map (fun file => (file j 1, file j 2)))

/-- Republican-biased barcodes: the same inner loop for `j in range(243, 431)`. -/
def rep_barcodes (read : String → ℕ → ℕ → ℝ) : List (List (ℝ × ℝ)) :=
  (List.range' 243 188).map
    (fun j => (barcodes read).map (fun file => (file j 1, file j 2)))

/-- The loader loop with exception semantics and a call trace:
`np.genfromtxt` is an oracle that may raise; the loop body has no handler,
so the first raise aborts the loop.  The second component records the file
names passed to the oracle, in call order. -/
def loadBarcodesTraced {ε M : Type} (read : String → Except ε M) :
    Except ε (List M) × List String :=
  (List.range 6).foldl
    (fun acc j =>
      match acc with
      | (Except.error e, calls) => (Except.error e, calls)
      | (Except.ok l, calls) =>
        match read (fileName j) with
        | Except.error e => (Except.error e, calls ++ [fileName j])
        | Except.ok f => (Except.ok (l ++ [f]), calls ++ [fileName j]))
    (Except.ok [], [])

end Districting

/-! ## Definitions: persistence images (notebook 06) -/

namespace PersIm

/-- Modelled from the spec: the persim `PersImage` implementation is a
third-party library, not part of this repository's sources.  The spec
describes a persistence image as "a fixed-resolution 2D grid of
accumulated Gaussian density", that is "a fixed-resolution rasterization
of a persistence diagram via weighted Gaussian kernels".  Accordingly, for
a resolution of `px` by `py` pixels, the image of a diagram is the `px` by
`py` grid whose pixel `(i, j)` accumulates the weighted Gaussian density
contributed by the diagram's points; `weight` and `gaussian` are the
kernel data (irrelevant to the grid resolution). -/
noncomputable def persImage (px py : ℕ) (weight : ℝ × ℝ → ℝ)
    (gaussian : ℝ × ℝ → ℕ × ℕ → ℝ) (dgm : List (ℝ × ℝ)) : List (List ℝ) :=
  (List.range px).map (fun i => (List.range py).map (fun j =>
    (dgm.map (fun p => weight p * gaussian p (i, j))).sum))

/-- `PersImage.transform` applied to a collection of diagrams: one image
per diagram. -/
noncomputable def transform (px py : ℕ) (weight : ℝ × ℝ → ℝ)
    (gaussian : ℝ × ℝ → ℕ × ℕ → ℝ) (dgms : List (List (ℝ × ℝ))) :
    List (List (List ℝ)) :=
  dgms.map (persImage px py weight gaussian)

end PersIm

/-! ## Definitions: `make_gravitational_waves` (Takens notebook)

The `.npy` file contents and all random draws are modelled by explicit
oracle arguments.  Arrays become lists of reals. -/

namespace GW

/-- Contents of `gravitational_wave_signals.npy`: a record with fields
`data` (the raw signals) and `signal_present`. -/
structure GWFile where
  data : List (List ℝ)
  signal_present : List ℝ

/-- The random draws consumed by `make_gravitational_waves`, per loop
index `j`: `sigpR j` is the `np.random.randn()` draw deciding the label,
`noiseR j` the Gaussian noise vector, and `cutR j`, `pad1R j`, `pad2R j`
the draws made inside the `padrand` call (`np.random.randint(n)` and the
two `np.random.randn` pads). -/
structure GWRand where
  sigpR : ℕ → ℝ
  noiseR : ℕ → ℕ → ℝ
  cutR : ℕ → ℕ
  pad1R : ℕ → ℕ → ℝ
  pad2R : ℕ → ℕ → ℝ

/-- `padrand(V, n, kr)`: pad `V` with `cut` scaled random points in front
and `n - cut` behind, where `cut = np.random.randint(n)`; the random draws
are the explicit arguments `cut`, `rand1`, `rand2`. -/
noncomputable def padrand (V : List ℝ) (n : ℕ) (kr : ℝ) (cut : ℕ)
    (rand1 rand2 : ℕ → ℝ) : List ℝ :=
  ((List.range cut).map (fun i => rand1 i * kr)) ++ V ++
    ((List.range (n - cut)).map (fun i => rand2 i * kr))

/-- `np.linspace(a, b, num)` as a function of the index. -/
noncomputable def linspace (a b : ℝ) (num : ℕ) : ℕ → ℝ :=
  fun i => if num ≤ 1 then a
    else a + (i : ℝ) * (b - a) / ((num : ℝ) - 1)

/-- Python `range(0, stop, step)` for a positive step: the multiples of
`step` below `stop`. -/
def pyRange0 (stop step : ℕ) : List ℕ :=
  (List.range ((stop + step - 1) / step)).map (fun i => i * step)

/-- `ncoeff[j] = 10**(-19) * (1 / Rcoef[j % n_snr_values])` where
`Rcoef = np.linspace(r_min, r_max, n_snr_values)`. -/
noncomputable def ncoeff (r_min r_max : ℝ) (n_snr_values j : ℕ) : ℝ :=
  10 ^ (-(19 : ℤ)) * (1 / linspace r_min r_max n_snr_values (j % n_snr_values))

/-- The clean downsampled signal of iteration `j`:
`gw["data"][j % Ndat][range(0, Norig, downsample_factor)]` with
`Norig = len(gw["data"][0])` and `Ndat = len(gw["signal_present"])`. -/
noncomputable def signalGW (gw : GWFile) (downsample_factor j : ℕ) : List ℝ :=
  (pyRange0 (gw.data.getD 0 []).length downsample_factor).map
    (fun i => (gw.data.getD (j % gw.signal_present.length) []).getD i 0)

/-- The Gaussian noise term of iteration `j`:
`ncoeff[j] * np.random.randn(N)` with `N = int(Norig / downsample_factor)`. -/
noncomputable def noiseTerm (gw : GWFile) (R : GWRand) (r_min r_max : ℝ)
    (n_snr_values downsample_factor j : ℕ) : List ℝ :=
  (List.range ((gw.data.getD 0 []).length / downsample_factor)).map
    (fun i => ncoeff r_min r_max n_snr_values j * R.noiseR j i)

/-- `sigp = int(np.random.randn() < 0)` of iteration `j`. -/
noncomputable def sigp (R : GWRand) (j : ℕ) : ℕ :=
  if R.sigpR j < 0 then 1 else 0

/-- The body of `make_gravitational_waves` after `np.load` succeeded:
returns `(noisy_signals, gw_signals, labels)`.  In iteration `j` the label
is `sigp`; when `sigp = 1` the padded vector is `signal + noise`
(elementwise, modelled by `zipWith`), otherwise it is `noise` alone; the
clean signal is appended to `gw_signals` either way.  `Npad = 500`.  (The
source's local flag `k` is written but never read, so it is omitted.) -/
noncomputable def make_gravitational_waves (gw : GWFile) (R : GWRand)
    (n_signals downsample_factor : ℕ) (r_min r_max : ℝ) (n_snr_values : ℕ) :
    List (List ℝ) × List (List ℝ) × List ℝ :=
  ((List.range n_signals).map (fun j =>
      if sigp R j = 1 then
        padrand (List.zipWith (· + ·) (signalGW gw downsample_factor j)
            (noiseTerm gw R r_min r_max n_snr_values downsample_factor j))
          500 (ncoeff r_min r_max n_snr_values j) (R.cutR j) (R.pad1R j)
          (R.pad2R j)
      else
        padrand (noiseTerm gw R r_min r_max n_snr_values downsample_factor j)
          500 (ncoeff r_min r_max n_snr_values j) (R.cutR j) (R.pad1R j)
          (R.pad2R j)),
   (List.range n_signals).map (fun j => signalGW gw downsample_factor j),
   (List.range n_signals).map (fun j => ((sigp R j : ℕ) : ℝ)))

/-- `make_gravitational_waves` including the single
`np.load(path_to_data / "gravitational_wave_signals.npy")` call, modelled
as an oracle that may raise.  There is no handler, so a raise propagates;
the second component records the paths passed to `np.load`, in call
order. -/
noncomputable def make_gravitational_waves_exc {ε : Type}
    (load : String → Except ε GWFile) (path_to_data : String) (R : GWRand)
    (n_signals downsample_factor : ℕ) (r_min r_max : ℝ) (n_snr_values : ℕ) :
    Except ε (List (List ℝ) × List (List ℝ) × List ℝ) × List String :=
  match load (path_to_data ++ "/gravitational_wave_signals.npy") with
  | Except.error e =>
    (Except.error e, [path_to_data ++ "/gravitational_wave_signals.npy"])
  | Except.ok gw =>
    (Except.ok (make_gravitational_waves gw R n_signals downsample_factor
        r_min r_max n_snr_values),
     [path_to_data ++ "/gravitational_wave_signals.npy"])

end GW

/-! ## Definitions: the synthetic noise-vs-circle dataset (notebook 06,
Part 1)

The notebook fixes `total_samples = 200`, `samples_per_class = 100`,
`npoints = 400`, `snr = 0.25`, `noise_scale = 150`, `circle_scale = 30`,
`circle_noise_level = 0.4`.  The random draws are oracle arguments, one
family per sample index. -/

namespace Synth

def total_samples : ℕ := 200

def samples_per_class : ℕ := total_samples / 2

def npoints : ℕ := 400

/-- `snr = 0.25`, exactly representable. -/
def snr : ℚ := 1 / 4

/-- `int(snr * npoints)`: the number of circle points in a `with_circle`
sample. -/
def snr_points : ℕ := Int.toNat ⌊snr * (npoints : ℚ)⌋

noncomputable def noise_scale : ℝ := 150

noncomputable def circle_scale : ℝ := 30

noncomputable def circle_noise_level : ℝ := 0.4

/-- The random draws consumed by the dataset construction, per sample
index: `noiseR` feeds the pure-noise generator, `circleN`/`circleU` the
Gaussian and uniform draws inside `noisy_sphere`, `offsetR` the scalar
uniform draw for the circle offset, and `noise2R` the noise half of a
`with_circle` sample. -/
structure SynthRand where
  noiseR : ℕ → ℕ → ℝ × ℝ
  circleN : ℕ → ℕ → ℝ × ℝ
  circleU : ℕ → ℕ → ℝ × ℝ
  offsetR : ℕ → ℝ
  noise2R : ℕ → ℕ → ℝ × ℝ

/-- `noise(N, scale)`: `scale * np.random.random((N, 2))`, an `N`-point
planar cloud. -/
noncomputable def noise (N : ℕ) (scale : ℝ) (rand : ℕ → ℝ × ℝ) :
    List (ℝ × ℝ) :=
  (List.range N).map (fun i => (scale * (rand i).1, scale * (rand i).2))

/-- `sample_spherical(npoints, scale)` in the planar case `ndim = 2`:
Gaussian vectors normalised columnwise, transposed and scaled. -/
noncomputable def sample_spherical (npts : ℕ) (scale : ℝ)
    (g : ℕ → ℝ × ℝ) : List (ℝ × ℝ) :=
  (List.range npts).map (fun i =>
    (scale * ((g i).1 / Real.sqrt ((g i).1 ^ 2 + (g i).2 ^ 2)),
     scale * ((g i).2 / Real.sqrt ((g i).1 ^ 2 + (g i).2 ^ 2))))

/-- `noisy_sphere(npoints, scale, noiseLevel, offset)` in the planar case:
`sample_spherical(...) + scale*noiseLevel*np.random.random((npoints, 2))
 + offset*np.ones(2)`. -/
noncomputable def noisy_sphere (npts : ℕ) (scale noiseLevel offset : ℝ)
    (g u2 : ℕ → ℝ × ℝ) : List (ℝ × ℝ) :=
  List.zipWith
    (fun p q => (p.1 + scale * noiseLevel * q.1 + offset,
                 p.2 + scale * noiseLevel * q.2 + offset))
    (sample_spherical npts scale g) ((List.range npts).map u2)

/-- `just_noise`: `samples_per_class` pure-noise samples. -/
noncomputable def just_noise (O : SynthRand) : List (List (ℝ × ℝ)) :=
  (List.range samples_per_class).map
    (fun s => noise npoints noise_scale (O.noiseR s))

/-- `with_circle`: `samples_per_class` samples, each concatenating
`int(snr*npoints)` noisy-circle points (offset by
`(0.2*np.random.random()+0.4)*noise_scale`) with the remaining
`npoints - int(snr*npoints)` noise points. -/
noncomputable def with_circle (O : SynthRand) : List (List (ℝ × ℝ)) :=
  (List.range samples_per_class).map (fun s =>
    noisy_sphere snr_points circle_scale circle_noise_level
        ((0.2 * O.offsetR s + 0.4) * noise_scale) (O.circleN s) (O.circleU s)
      ++ noise (npoints - snr_points) noise_scale (O.noise2R s))

/-- `datas`: the noise samples followed by the circle samples. -/
noncomputable def datas (O : SynthRand) : List (List (ℝ × ℝ)) :=
  just_noise O ++ with_circle O

/-- `labels = np.zeros(total_samples); labels[samples_per_class:] = 1`. -/
noncomputable def labels : Fin total_samples → ℝ :=
  fun i => if samples_per_class ≤ i.1 then 1 else 0

end Synth

/-! ## Theorems -/

namespace SLHC

lemma chainSet_bddBelow {k : ℕ} (d : Fin k → Fin k → ℝ) (x y : Fin k) :
    BddBelow (chainSet d x y) :=
  ⟨0, fun ε hε => le_of_lt hε.1⟩

lemma chainSet_nonempty {k : ℕ} (d : Fin k → Fin k → ℝ)
    (hnonneg : ∀ a b, 0 ≤ d a b) (x y : Fin k) :
    (chainSet d x y).Nonempty := by
  refine ⟨d x y + 1, by linarith [hnonneg x y], [x, y], rfl, rfl, ?_⟩
  exact List.chain'_pair.mpr (by linarith)

lemma u_nonneg {k : ℕ} (d : Fin k → Fin k → ℝ) (x y : Fin k) : 0 ≤ u d x y :=
  Real.sInf_nonneg fun _ hε => le_of_lt hε.1

lemma chainSet_self {k : ℕ} (d : Fin k → Fin k → ℝ) (x : Fin k) :
    chainSet d x x = Set.Ioi 0 := by
  ext ε
  constructor
  · intro hε; exact hε.1
  · intro hε
    exact ⟨hε, [x], rfl, rfl, List.chain'_singleton x⟩

lemma u_self {k : ℕ} (d : Fin k → Fin k → ℝ) (x : Fin k) : u d x x = 0 := by
  rw [u, chainSet_self]
  exact csInf_Ioi

lemma chainSet_symm {k : ℕ} (d : Fin k → Fin k → ℝ)
    (hsymm : ∀ a b, d a b = d b a) (x y : Fin k) :
    chainSet d x y = chainSet d y x := by
  have key : ∀ a b : Fin k, chainSet d a b ⊆ chainSet d b a := by
    rintro a b ε ⟨hε, l, h1, h2, hc⟩
    refine ⟨hε, l.reverse, ?_, ?_, ?_⟩
    · rw [List.head?_reverse]; exact h2
    · rw [List.getLast?_reverse]; exact h1
    · rw [List.chain'_reverse]
      exact hc.imp fun p q hpq => by simpa [flip, hsymm q p] using hpq
  exact Set.Subset.antisymm (key x y) (key y x)

lemma u_symm {k : ℕ} (d : Fin k → Fin k → ℝ)
    (hsymm : ∀ a b, d a b = d b a) (x y : Fin k) : u d x y = u d y x := by
  rw [u, u, chainSet_symm d hsymm]

/-- In a chain with distinct endpoints some adjacent pair is distinct. -/
lemma exists_adjacent_ne {α : Type} (R : α → α → Prop) :
    ∀ (l : List α) (x y : α), l.head? = some x → l.getLast? = some y →
      x ≠ y → l.Chain' R → ∃ a b, a ≠ b ∧ R a b := by
  intro l
  induction l with
  | nil => intro x y h1 _ _ _; simp at h1
  | cons a t ih =>
    intro x y h1 h2 hxy hc
    have hax : a = x := by simpa using h1
    cases t with
    | nil =>
      exfalso
      apply hxy
      have : a = y := by simpa using h2
      rw [← hax, this]
    | cons b t2 =>
      have hstep : R a b ∧ List.Chain' R (b :: t2) := List.chain'_cons.mp hc
      by_cases hab : a = b
      · subst hab
        have h2' : (a :: t2).getLast? = some y := by
          rw [← List.getLast?_cons_cons]; exact h2
        exact ih x y (by simp [hax]) h2' hxy hstep.2
      · exact ⟨a, b, hab, hstep.1⟩

/-- For distinct `x ≠ y`, every chain level is at least the minimum
pairwise distance between distinct points, hence `u d x y > 0`. -/
lemma u_pos_of_ne {k : ℕ} (d : Fin k → Fin k → ℝ)
    (hnonneg : ∀ a b, 0 ≤ d a b) (hzero : ∀ a b, d a b = 0 ↔ a = b)
    (x y : Fin k) (hxy : x ≠ y) : 0 < u d x y := by
  classical
  set P : Finset (Fin k × Fin k) :=
    Finset.univ.filter (fun p : Fin k × Fin k => p.1 ≠ p.2) with hP
  have hPne : P.Nonempty := ⟨(x, y), by simp [hP, hxy]⟩
  set S : Finset ℝ := P.image (fun p => d p.1 p.2) with hS
  have hSne : S.Nonempty := hPne.image _
  have hδpos : 0 < S.min' hSne := by
    obtain ⟨p, hp, hpd⟩ := Finset.mem_image.mp (S.min'_mem hSne)
    have hpne : p.1 ≠ p.2 := by
      have := Finset.mem_filter.mp hp
      exact this.2
    have h0 : d p.1 p.2 ≠ 0 := fun h => hpne ((hzero p.1 p.2).mp h)
    rw [← hpd]
    exact lt_of_le_of_ne (hnonneg p.1 p.2) (Ne.symm h0)
  have hlow : ∀ ε ∈ chainSet d x y, S.min' hSne ≤ ε := by
    rintro ε ⟨hε, l, h1, h2, hc⟩
    obtain ⟨a, b, hab, hR⟩ :=
      exists_adjacent_ne (fun a b => d a b ≤ ε) l x y h1 h2 hxy hc
    have hmem : d a b ∈ S :=
      Finset.mem_image.mpr ⟨(a, b), Finset.mem_filter.mpr ⟨Finset.mem_univ _, hab⟩, rfl⟩
    exact le_trans (S.min'_le _ hmem) hR
  have : S.min' hSne ≤ u d x y :=
    le_csInf (chainSet_nonempty d hnonneg x y) hlow
  linarith

lemma u_eq_zero_iff {k : ℕ} (d : Fin k → Fin k → ℝ)
    (hnonneg : ∀ a b, 0 ≤ d a b) (hzero : ∀ a b, d a b = 0 ↔ a = b)
    (x y : Fin k) : u d x y = 0 ↔ x = y := by
  constructor
  · intro h
    by_contra hxy
    exact absurd h (ne_of_gt (u_pos_of_ne d hnonneg hzero x y hxy))
  · intro h; subst h; exact u_self d x

/-- Concatenating an `ε`-chain `x..y` and an `ε'`-chain `y..z` yields a
`max ε ε'`-chain `x..z` (the join step has distance `d y y = 0`). -/
lemma chainSet_max_mem {k : ℕ} (d : Fin k → Fin k → ℝ)
    (hzero : ∀ a b, d a b = 0 ↔ a = b) (x y z : Fin k) {ε ε' : ℝ}
    (h1 : ε ∈ chainSet d x y) (h2 : ε' ∈ chainSet d y z) :
    max ε ε' ∈ chainSet d x z := by
  obtain ⟨hε, l1, l1h, l1t, l1c⟩ := h1
  obtain ⟨hε', l2, l2h, l2t, l2c⟩ := h2
  have hl1ne : l1 ≠ [] := by intro h; rw [h] at l1h; simp at l1h
  have hl2ne : l2 ≠ [] := by intro h; rw [h] at l2h; simp at l2h
  refine ⟨lt_max_of_lt_left hε, l1 ++ l2, ?_, ?_, ?_⟩
  · rw [List.head?_append_of_ne_nil l1 hl1ne]; exact l1h
  · rw [List.getLast?_append_of_ne_nil l1 hl2ne]; exact l2t
  · refine List.Chain'.append
      (l1c.imp fun a b hab => le_trans hab (le_max_left ε ε'))
      (l2c.imp fun a b hab => le_trans hab (le_max_right ε ε')) ?_
    intro p hp q hq
    rw [l1t] at hp
    rw [l2h] at hq
    have hpy : y = p := by simpa using hp
    have hqy : y = q := by simpa using hq
    rw [← hpy, ← hqy, (hzero y y).mpr rfl]
    exact le_of_lt (lt_max_of_lt_left hε)

/-- The strong triangle inequality for the SLHC metric. -/
lemma u_strong_triangle {k : ℕ} (d : Fin k → Fin k → ℝ)
    (hnonneg : ∀ a b, 0 ≤ d a b) (hzero : ∀ a b, d a b = 0 ↔ a = b)
    (x y z : Fin k) : u d x z ≤ max (u d x y) (u d y z) := by
  refine le_of_forall_pos_le_add fun η hη => ?_
  have hxyne := chainSet_nonempty d hnonneg x y
  have hyzne := chainSet_nonempty d hnonneg y z
  obtain ⟨ε, hεmem, hεlt⟩ :=
    exists_lt_of_csInf_lt hxyne (lt_add_of_pos_right (u d x y) hη)
  obtain ⟨ε', hε'mem, hε'lt⟩ :=
    exists_lt_of_csInf_lt hyzne (lt_add_of_pos_right (u d y z) hη)
  have hmem := chainSet_max_mem d hzero x y z hεmem hε'mem
  have h1 : u d x z ≤ max ε ε' := csInf_le (chainSet_bddBelow d x z) hmem
  have h2 : max ε ε' ≤ max (u d x y + η) (u d y z + η) :=
    max_le_max (le_of_lt hεlt) (le_of_lt hε'lt)
  calc u d x z ≤ max (u d x y + η) (u d y z + η) := le_trans h1 h2
    _ = max (u d x y) (u d y z) + η := max_add_add_right _ _ _

/-- C1: for every finite metric space `(X, d)` the single-linkage
clustering metric `u` satisfies the strong triangle inequality
`u x x'' ≤ max (u x x') (u x' x'')`, is nonnegative, vanishes exactly on
the diagonal, and is symmetric — i.e. `u` is an ultrametric. -/
theorem C1_slhc_ultrametric {k : ℕ} (d : Fin k → Fin k → ℝ)
    (hnonneg : ∀ a b, 0 ≤ d a b) (hzero : ∀ a b, d a b = 0 ↔ a = b)
    (hsymm : ∀ a b, d a b = d b a)
    (htri : ∀ a b c, d a c ≤ d a b + d b c) :
    (∀ x x' x'', u d x x'' ≤ max (u d x x') (u d x' x'')) ∧
    (∀ x x', 0 ≤ u d x x') ∧
    (∀ x x', u d x x' = 0 ↔ x = x') ∧
    (∀ x x', u d x x' = u d x' x) := by
  refine ⟨fun x x' x'' => u_strong_triangle d hnonneg hzero x x' x'',
    fun x x' => u_nonneg d x x',
    fun x x' => u_eq_zero_iff d hnonneg hzero x x',
    fun x x' => u_symm d hsymm x x'⟩

/-- Witness for C1 at the one-point space with the zero metric. -/
theorem C1_witness :
    u (fun _ _ : Fin 1 => (0 : ℝ)) 0 0 = 0 :=
  ((C1_slhc_ultrametric (fun _ _ : Fin 1 => (0 : ℝ))
      (fun _ _ => le_refl 0)
      (fun a b => by simp [Subsingleton.elim a b])
      (fun _ _ => rfl)
      (fun _ _ _ => by simp)).2.2.1 0 0).mpr rfl

/-- Pushing an `ε`-chain through a correspondence of distortion at most
`δ` yields an `ε + δ`-chain between related endpoints (up to the choice of
the final endpoint, which stays related to the original one). -/
lemma chain_transfer {m n : ℕ} (dX : Fin m → Fin m → ℝ)
    (dY : Fin n → Fin n → ℝ) (R : Finset (Fin m × Fin n))
    (htot : ∀ x : Fin m, ∃ y, (x, y) ∈ R) {δ : ℝ}
    (hb : ∀ p ∈ R, ∀ q ∈ R, |dX p.1 q.1 - dY p.2 q.2| ≤ δ) {ε : ℝ} :
    ∀ (l : List (Fin m)) (x x' : Fin m) (y : Fin n),
      l.head? = some x → l.getLast? = some x' →
      l.Chain' (fun a b => dX a b ≤ ε) → (x, y) ∈ R →
      ∃ (l' : List (Fin n)) (y' : Fin n), l'.head? = some y ∧
        l'.getLast? = some y' ∧ (x', y') ∈ R ∧
        l'.Chain' (fun a b => dY a b ≤ ε + δ) := by
  intro l
  induction l with
  | nil => intro x x' y h1 _ _ _; simp at h1
  | cons a t ih =>
    intro x x' y h1 h2 hc hxy
    have hax : a = x := by simpa using h1
    subst hax
    cases t with
    | nil =>
      have hx' : a = x' := by simpa using h2
      subst hx'
      exact ⟨[y], y, rfl, rfl, hxy, List.chain'_singleton y⟩
    | cons b t2 =>
      have hstep : dX a b ≤ ε ∧ List.Chain' (fun p q => dX p q ≤ ε) (b :: t2) :=
        List.chain'_cons.mp hc
      obtain ⟨z, hz⟩ := htot b
      have h2' : (b :: t2).getLast? = some x' := by
        rw [← List.getLast?_cons_cons]; exact h2
      obtain ⟨l'', y', hl''h, hl''t, hy', hl''c⟩ :=
        ih b x' z rfl h2' hstep.2 hz
      have hjoin : dY y z ≤ ε + δ := by
        have habs := hb (a, y) hxy (b, z) hz
        have := abs_sub_le_iff.mp habs
        have h1' : dY y z ≤ dX a b + δ := by
          have := this.2
          simp only at this
          linarith
        linarith [hstep.1]
      cases l'' with
      | nil => simp at hl''h
      | cons w l3 =>
        have hwz : w = z := by simpa using hl''h
        subst hwz
        refine ⟨y :: w :: l3, y', rfl, ?_, hy', ?_⟩
        · rw [List.getLast?_cons_cons]; exact hl''t
        · exact List.chain'_cons.mpr ⟨hjoin, hl''c⟩

/-- Transferring the infimum: if `(x, y)` and `(x', y')` lie in a
correspondence of distortion at most `δ`, then
`u dY y y' ≤ u dX x x' + δ`. -/
lemma u_le_u_add {m n : ℕ} (dX : Fin m → Fin m → ℝ)
    (dY : Fin n → Fin n → ℝ)
    (hnonnegX : ∀ a b, 0 ≤ dX a b) (hzeroX : ∀ a b, dX a b = 0 ↔ a = b)
    (R : Finset (Fin m × Fin n)) (htot : ∀ x : Fin m, ∃ y, (x, y) ∈ R)
    {δ : ℝ} (hδ : 0 ≤ δ)
    (hb : ∀ p ∈ R, ∀ q ∈ R, |dX p.1 q.1 - dY p.2 q.2| ≤ δ)
    {x x' : Fin m} {y y' : Fin n} (hxy : (x, y) ∈ R)
    (hxy2 : (x', y') ∈ R) : u dY y y' ≤ u dX x x' + δ := by
  refine le_of_forall_pos_le_add fun η hη => ?_
  obtain ⟨ε, hεmem, hεlt⟩ :=
    exists_lt_of_csInf_lt (chainSet_nonempty dX hnonnegX x x')
      (lt_add_of_pos_right (u dX x x') hη)
  obtain ⟨hεpos, l, hlh, hlt, hlc⟩ := hεmem
  obtain ⟨l', y'', hl'h, hl't, hy'', hl'c⟩ :=
    chain_transfer dX dY R htot hb l x x' y hlh hlt hlc hxy
  -- append the required endpoint y': its distance to y'' is at most
  -- |dX x' x' - dY y'' y'| ≤ δ since both pairs lie in R
  have hl'ne : l' ≠ [] := by intro h; rw [h] at hl'h; simp at hl'h
  have hend : dY y'' y' ≤ ε + δ := by
    have habs := hb (x', y'') hy'' (x', y') hxy2
    have := (abs_sub_le_iff.mp habs).2
    have hxx : dX x' x' = 0 := (hzeroX x' x').mpr rfl
    simp only [hxx] at this
    linarith
  have hmem : ε + δ ∈ chainSet dY y y' := by
    refine ⟨by linarith, l' ++ [y'], ?_, ?_, ?_⟩
    · rw [List.head?_append_of_ne_nil l' hl'ne]; exact hl'h
    · rw [List.getLast?_append_of_ne_nil l' (by simp)]; rfl
    · refine List.Chain'.append hl'c (List.chain'_singleton y') ?_
      intro p hp q hq
      rw [hl't] at hp
      have hpy : y'' = p := by simpa using hp
      have hqy : y' = q := by simpa using hq
      rw [← hpy, ← hqy]
      exact hend
  have := csInf_le (chainSet_bddBelow dY y y') hmem
  calc u dY y y' ≤ ε + δ := this
    _ ≤ u dX x x' + η + δ := by linarith
    _ = u dX x x' + δ + η := by ring

/-- The swapped correspondence. -/
lemma isCorr_swap {m n : ℕ} {R : Finset (Fin m × Fin n)} (h : isCorr R) :
    isCorr (R.image Prod.swap) := by
  constructor
  · intro y
    obtain ⟨x, hx⟩ := h.2 y
    exact ⟨x, Finset.mem_image.mpr ⟨(x, y), hx, rfl⟩⟩
  · intro x
    obtain ⟨y, hy⟩ := h.1 x
    exact ⟨y, Finset.mem_image.mpr ⟨(x, y), hy, rfl⟩⟩

lemma mem_swap_iff {m n : ℕ} {R : Finset (Fin m × Fin n)} {x : Fin m}
    {y : Fin n} : (y, x) ∈ R.image Prod.swap ↔ (x, y) ∈ R := by
  constructor
  · intro h
    obtain ⟨p, hp, hpe⟩ := Finset.mem_image.mp h
    have : p = (x, y) := by
      have := congrArg Prod.swap hpe
      simpa using this
    rw [← this]; exact hp
  · intro h
    exact Finset.mem_image.mpr ⟨(x, y), h, rfl⟩

/-- A correspondence of `d`-distortion at most `δ` also has `u`-distortion
at most `δ`. -/
lemma u_dis_le {m n : ℕ} (dX : Fin m → Fin m → ℝ) (dY : Fin n → Fin n → ℝ)
    (hnonnegX : ∀ a b, 0 ≤ dX a b) (hzeroX : ∀ a b, dX a b = 0 ↔ a = b)
    (hnonnegY : ∀ a b, 0 ≤ dY a b) (hzeroY : ∀ a b, dY a b = 0 ↔ a = b)
    (R : Finset (Fin m × Fin n)) (hR : isCorr R) {δ : ℝ} (hδ : 0 ≤ δ)
    (hb : ∀ p ∈ R, ∀ q ∈ R, |dX p.1 q.1 - dY p.2 q.2| ≤ δ) :
    ∀ p ∈ R, ∀ q ∈ R, |u dX p.1 q.1 - u dY p.2 q.2| ≤ δ := by
  intro p hp q hq
  have h1 : u dY p.2 q.2 ≤ u dX p.1 q.1 + δ :=
    u_le_u_add dX dY hnonnegX hzeroX R hR.1 hδ hb hp hq
  have hbsw : ∀ a ∈ R.image Prod.swap, ∀ b ∈ R.image Prod.swap,
      |dY a.1 b.1 - dX a.2 b.2| ≤ δ := by
    rintro ⟨ya, xa⟩ ha ⟨yb, xb⟩ hbm
    have hma : (xa, ya) ∈ R := mem_swap_iff.mp ha
    have hmb : (xb, yb) ∈ R := mem_swap_iff.mp hbm
    have := hb (xa, ya) hma (xb, yb) hmb
    simpa [abs_sub_comm] using this
  have h2 : u dX p.1 q.1 ≤ u dY p.2 q.2 + δ := by
    have hsw1 : (p.2, p.1) ∈ R.image Prod.swap := mem_swap_iff.mpr hp
    have hsw2 : (q.2, q.1) ∈ R.image Prod.swap := mem_swap_iff.mpr hq
    exact u_le_u_add dY dX hnonnegY hzeroY (R.image Prod.swap)
      (isCorr_swap hR).1 hδ hbsw hsw1 hsw2
  exact abs_sub_le_iff.mpr ⟨by linarith, by linarith⟩

lemma disSet_subset {m n : ℕ} (dX : Fin m → Fin m → ℝ)
    (dY : Fin n → Fin n → ℝ)
    (hnonnegX : ∀ a b, 0 ≤ dX a b) (hzeroX : ∀ a b, dX a b = 0 ↔ a = b)
    (hnonnegY : ∀ a b, 0 ≤ dY a b) (hzeroY : ∀ a b, dY a b = 0 ↔ a = b) :
    disSet dX dY ⊆ disSet (u dX) (u dY) := by
  rintro e ⟨he, R, hR, hb⟩
  exact ⟨he, R, hR,
    u_dis_le dX dY hnonnegX hzeroX hnonnegY hzeroY R hR
      (by linarith) hb⟩

/-- Every correspondence admits some distortion bound, so if `disSet` is
empty for one pair of metrics it is empty for any other pair as well. -/
lemma disSet_nonempty_of_corr {m n : ℕ} (dX : Fin m → Fin m → ℝ)
    (dY : Fin n → Fin n → ℝ) (R : Finset (Fin m × Fin n))
    (hR : isCorr R) : (disSet dX dY).Nonempty := by
  classical
  set B : ℝ := ∑ pq ∈ R ×ˢ R, |dX pq.1.1 pq.2.1 - dY pq.1.2 pq.2.2| with hB
  have hBnn : 0 ≤ B :=
    Finset.sum_nonneg fun i _ => abs_nonneg _
  refine ⟨B / 2, by linarith, R, hR, ?_⟩
  intro p hp q hq
  have hmem : (p, q) ∈ R ×ˢ R := Finset.mem_product.mpr ⟨hp, hq⟩
  have := @Finset.single_le_sum ((Fin m × Fin n) × (Fin m × Fin n)) ℝ _
    (fun pq => |dX pq.1.1 pq.2.1 - dY pq.1.2 pq.2.2|) (R ×ˢ R)
    (fun i _ => abs_nonneg _) (p, q) hmem
  calc |dX p.1 q.1 - dY p.2 q.2| ≤ B := this
    _ = 2 * (B / 2) := by ring

/-- C2: the Carlsson-Memoli stability theorem stated in notebook 02 — the
Gromov-Hausdorff distance between the SLHC ultrametric spaces is bounded
by the Gromov-Hausdorff distance between the original finite metric
spaces. -/
theorem C2_slhc_gh_stability {m n : ℕ} (dX : Fin m → Fin m → ℝ)
    (dY : Fin n → Fin n → ℝ)
    (hnonnegX : ∀ a b, 0 ≤ dX a b) (hzeroX : ∀ a b, dX a b = 0 ↔ a = b)
    (hsymmX : ∀ a b, dX a b = dX b a)
    (htriX : ∀ a b c, dX a c ≤ dX a b + dX b c)
    (hnonnegY : ∀ a b, 0 ≤ dY a b) (hzeroY : ∀ a b, dY a b = 0 ↔ a = b)
    (hsymmY : ∀ a b, dY a b = dY b a)
    (htriY : ∀ a b c, dY a c ≤ dY a b + dY b c) :
    dGH (u dX) (u dY) ≤ dGH dX dY := by
  by_cases h : (disSet dX dY).Nonempty
  · exact csInf_le_csInf ⟨0, fun e he => he.1⟩ h
      (disSet_subset dX dY hnonnegX hzeroX hnonnegY hzeroY)
  · have hempty : disSet dX dY = ∅ := Set.not_nonempty_iff_eq_empty.mp h
    have hemptyU : disSet (u dX) (u dY) = ∅ := by
      by_contra hne
      obtain ⟨e, he, R, hR, hbound⟩ :=
        Set.nonempty_iff_ne_empty.mpr hne
      exact h (disSet_nonempty_of_corr dX dY R hR)
    rw [dGH, dGH, hempty, hemptyU]

/-- Witness for C2 at a pair of one-point spaces with the zero metric. -/
theorem C2_witness :
    dGH (u (fun _ _ : Fin 1 => (0 : ℝ))) (u (fun _ _ : Fin 1 => (0 : ℝ))) ≤
      dGH (fun _ _ : Fin 1 => (0 : ℝ)) (fun _ _ : Fin 1 => (0 : ℝ)) :=
  C2_slhc_gh_stability (fun _ _ => 0) (fun _ _ => 0)
    (fun _ _ => le_refl 0) (fun a b => by simp [Subsingleton.elim a b])
    (fun _ _ => rfl) (fun _ _ _ => by simp)
    (fun _ _ => le_refl 0) (fun a b => by simp [Subsingleton.elim a b])
    (fun _ _ => rfl) (fun _ _ _ => by simp)

end SLHC

namespace NpShape

lemma sample_spherical_shape (npoints ndim : ℕ) :
    sample_spherical npoints ndim = some [npoints, ndim] := by
  simp [sample_spherical, broadcastShapes, broadcastRev, bcastDim, transpose]

/-- C3 (evaluating the generators' shapes, including at the failing
input): `noisy_sphere(npoints, ..., ndim)` does return an
`(npoints, ndim)`-shaped array for every requested dimension, but
`noise(N, scale, ndim)` has shape `(N, 2)` regardless of `ndim` because
its body hardcodes `np.random.random((N, 2))`: at `N = 5, ndim = 3` the
result has shape `(5, 2)`, not the claimed `(5, 3)`. -/
theorem C3_generator_shapes :
    (∀ npoints ndim : ℕ, noisy_sphere npoints ndim = some [npoints, ndim]) ∧
    noise 5 1 3 = [5, 2] ∧ noise 5 1 3 ≠ [5, 3] := by
  refine ⟨fun npoints ndim => ?_, rfl, by decide⟩
  simp [noisy_sphere, sample_spherical_shape, broadcastShapes, broadcastRev,
    bcastDim]

end NpShape

namespace DistMat

/-- C4: the distance matrix `pairwise_distances X` of any point cloud `X`
of `N` points is an `N` by `N` matrix (by its type) that is symmetric with
zero diagonal, and the hand-written 4 by 4 matrix `D` of notebook 02 is
symmetric with zero diagonal as well. -/
theorem C4_distance_matrices :
    (∀ (N k : ℕ) (X : Fin N → Fin k → ℝ) (i j : Fin N),
      pairwise_distances X i j = pairwise_distances X j i ∧
      pairwise_distances X i i = 0) ∧
    (∀ i j : Fin 4, D i j = D j i ∧ D i i = 0) := by
  refine ⟨fun N k X i j => ⟨?_, ?_⟩, by decide⟩
  · unfold pairwise_distances
    congr 1
    exact Finset.sum_congr rfl fun t _ => by ring
  · simp [pairwise_distances]

end DistMat

namespace Districting

/-- C5: the loader reads the six files `data/50biased_0.csv` through
`data/50biased_5.csv`; `dem_barcodes` has exactly 242 entries (rows 1-242)
and `rep_barcodes` exactly 188 (rows 243-430); every barcode consists of
exactly six `(birth, death)` pairs, the `k`-th pair taken from columns 1
and 2 of the `k`-th file, in file order. -/
theorem C5_barcode_loader (read : String → ℕ → ℕ → ℝ) :
    barcodes read = [read ("data/50biased_0.csv"), read ("data/50biased_1.csv"),
      read ("data/50biased_2.csv"), read ("data/50biased_3.csv"),
      read ("data/50biased_4.csv"), read ("data/50biased_5.csv")] ∧
    (dem_barcodes read).length = 242 ∧ (rep_barcodes read).length = 188 ∧
    (∀ b ∈ dem_barcodes read, b.length = 6) ∧
    (∀ b ∈ rep_barcodes read, b.length = 6) ∧
    (∀ i : ℕ, i < 242 → (dem_barcodes read).getD i [] =
      (List.range 6).map (fun k => (read (fileName k) (1 + i) 1,
        read (fileName k) (1 + i) 2))) ∧
    (∀ i : ℕ, i < 188 → (rep_barcodes read).getD i [] =
      (List.range 6).map (fun k => (read (fileName k) (243 + i) 1,
        read (fileName k) (243 + i) 2))) := by
  refine ⟨rfl, by simp [dem_barcodes], by simp [rep_barcodes], ?_, ?_, ?_, ?_⟩
  · intro b hb
    obtain ⟨j, _, rfl⟩ := List.mem_map.mp hb
    simp [barcodes]
  · intro b hb
    obtain ⟨j, _, rfl⟩ := List.mem_map.mp hb
    simp [barcodes]
  · intro i hi
    rw [dem_barcodes, List.getD_eq_getElem?_getD, List.getElem?_map,
      List.getElem?_range' 1 1 hi]
    simp [barcodes, List.map_map, Function.comp]
  · intro i hi
    rw [rep_barcodes, List.getD_eq_getElem?_getD, List.getElem?_map,
      List.getElem?_range' 243 1 hi]
    simp [barcodes, List.map_map, Function.comp]

/-- Witness for C5: the fourth dem barcode of the constant-zero oracle. -/
theorem C5_witness :
    (dem_barcodes (fun _ _ _ => 0)).getD 3 [] =
      (List.range 6).map (fun _ => ((0 : ℝ), (0 : ℝ))) := by
  have h := (C5_barcode_loader (fun _ _ _ => 0)).2.2.2.2.2.1 3 (by decide)
  simpa using h

end Districting

/-- C6: no helper performs error recovery or retries.  For the CSV barcode
loader: if the first `k` files parse and file `k` raises, the raise
propagates unchanged, files `0..k` were each read exactly once and nothing
further is read.  For `make_gravitational_waves`: if `np.load` raises, the
raise propagates unchanged and `np.load` was called exactly once. -/
theorem C6_no_error_recovery :
    (∀ (εt : Type) (read : String → Except εt (ℕ → ℕ → ℝ)) (k : ℕ) (e : εt),
      k < 6 → (∀ j, j < k → ∃ m, read (Districting.fileName j) = Except.ok m) →
      read (Districting.fileName k) = Except.error e →
      Districting.loadBarcodesTraced read =
        (Except.error e, (List.range (k + 1)).map Districting.fileName)) ∧
    (∀ (εt : Type) (load : String → Except εt GW.GWFile) (p : String)
      (R : GW.GWRand) (ns ds : ℕ) (rmin rmax : ℝ) (nsnr : ℕ) (e : εt),
      load (p ++ "/gravitational_wave_signals.npy") = Except.error e →
      GW.make_gravitational_waves_exc load p R ns ds rmin rmax nsnr =
        (Except.error e, [p ++ "/gravitational_wave_signals.npy"])) := by
  constructor
  · intro εt read k e hk hok herr
    interval_cases k
    · rw [Districting.loadBarcodesTraced,
        show List.range 6 = [0, 1, 2, 3, 4, 5] from rfl,
        show List.range 1 = [0] from rfl]
      simp [List.foldl, herr]
    · obtain ⟨m0, h0⟩ := hok 0 (by omega)
      rw [Districting.loadBarcodesTraced,
        show List.range 6 = [0, 1, 2, 3, 4, 5] from rfl,
        show List.range 2 = [0, 1] from rfl]
      simp [List.foldl, h0, herr]
    · obtain ⟨m0, h0⟩ := hok 0 (by omega)
      obtain ⟨m1, h1⟩ := hok 1 (by omega)
      rw [Districting.loadBarcodesTraced,
        show List.range 6 = [0, 1, 2, 3, 4, 5] from rfl,
        show List.range 3 = [0, 1, 2] from rfl]
      simp [List.foldl, h0, h1, herr]
    · obtain ⟨m0, h0⟩ := hok 0 (by omega)
      obtain ⟨m1, h1⟩ := hok 1 (by omega)
      obtain ⟨m2, h2⟩ := hok 2 (by omega)
      rw [Districting.loadBarcodesTraced,
        show List.range 6 = [0, 1, 2, 3, 4, 5] from rfl,
        show List.range 4 = [0, 1, 2, 3] from rfl]
      simp [List.foldl, h0, h1, h2, herr]
    · obtain ⟨m0, h0⟩ := hok 0 (by omega)
      obtain ⟨m1, h1⟩ := hok 1 (by omega)
      obtain ⟨m2, h2⟩ := hok 2 (by omega)
      obtain ⟨m3, h3⟩ := hok 3 (by omega)
      rw [Districting.loadBarcodesTraced,
        show List.range 6 = [0, 1, 2, 3, 4, 5] from rfl,
        show List.range 5 = [0, 1, 2, 3, 4] from rfl]
      simp [List.foldl, h0, h1, h2, h3, herr]
    · obtain ⟨m0, h0⟩ := hok 0 (by omega)
      obtain ⟨m1, h1⟩ := hok 1 (by omega)
      obtain ⟨m2, h2⟩ := hok 2 (by omega)
      obtain ⟨m3, h3⟩ := hok 3 (by omega)
      obtain ⟨m4, h4⟩ := hok 4 (by omega)
      rw [Districting.loadBarcodesTraced,
        show List.range 6 = [0, 1, 2, 3, 4, 5] from rfl]
      simp [List.foldl, h0, h1, h2, h3, h4, herr]
  · intro εt load p R ns ds rmin rmax nsnr e herr
    simp [GW.make_gravitational_waves_exc, herr]

/-- Witness for C6: an oracle failing at the third file, and an `np.load`
oracle that always fails. -/
theorem C6_witness :
    Districting.loadBarcodesTraced
        (fun s => if s = Districting.fileName 2 then Except.error 7
          else Except.ok (fun _ _ => (0 : ℝ)) :
          String → Except ℕ (ℕ → ℕ → ℝ)) =
      (Except.error 7, (List.range 3).map Districting.fileName) ∧
    GW.make_gravitational_waves_exc (fun _ => Except.error 7) ("x")
        ⟨fun _ => 0, fun _ _ => 0, fun _ => 0, fun _ _ => 0, fun _ _ => 0⟩
        1 2 0 0 1 =
      (Except.error 7, [("x" : String) ++ "/gravitational_wave_signals.npy"]) := by
  constructor
  · exact C6_no_error_recovery.1 ℕ _ 2 7 (by omega)
      (fun j hj => ⟨fun _ _ => 0, by interval_cases j <;> rw [if_neg (by decide)]⟩)
      (if_pos rfl)
  · exact C6_no_error_recovery.2 ℕ _ ("x") _ 1 2 0 0 1 7 rfl

namespace PersIm

lemma transform_shape (px py : ℕ) (w : ℝ × ℝ → ℝ) (g : ℝ × ℝ → ℕ × ℕ → ℝ)
    (dgms : List (List (ℝ × ℝ))) (img : List (List ℝ))
    (h : img ∈ transform px py w g dgms) :
    img.length = px ∧ (∀ r ∈ img, r.length = py) ∧
      img.flatten.length = px * py := by
  obtain ⟨dgm, _, rfl⟩ := List.mem_map.mp h
  refine ⟨by simp [persImage], ?_, ?_⟩
  · intro r hr
    obtain ⟨i, _, rfl⟩ := List.mem_map.mp hr
    simp
  · rw [List.length_flatten, persImage, List.map_map]
    have hcomp : (List.length ∘ fun i => List.map
        (fun j => (List.map (fun p => w p * g p (i, j)) dgm).sum)
        (List.range py)) = fun _ => py := by
      funext i; simp
    rw [hcomp]
    simp [List.map_const', List.sum_replicate, smul_eq_mul]

/-- C7: every persistence image produced by `transform` has the resolution
fixed at construction: with pixels `(20, 20)` each image is a 20 by 20
grid flattening to 400 numbers; with pixels `(30, 30)` each is a 30 by 30
grid flattening to 900 numbers. -/
theorem C7_persistence_image_resolution :
    (∀ (w : ℝ × ℝ → ℝ) (g : ℝ × ℝ → ℕ × ℕ → ℝ) dgms img,
      img ∈ transform 20 20 w g dgms →
      img.length = 20 ∧ (∀ r ∈ img, r.length = 20) ∧
        img.flatten.length = 400) ∧
    (∀ (w : ℝ × ℝ → ℝ) (g : ℝ × ℝ → ℕ × ℕ → ℝ) dgms img,
      img ∈ transform 30 30 w g dgms →
      img.length = 30 ∧ (∀ r ∈ img, r.length = 30) ∧
        img.flatten.length = 900) := by
  constructor
  · intro w g dgms img h
    simpa using transform_shape 20 20 w g dgms img h
  · intro w g dgms img h
    simpa using transform_shape 30 30 w g dgms img h

/-- Witness for C7 at a one-element collection holding the empty diagram. -/
theorem C7_witness :
    (persImage 20 20 (fun _ => (0 : ℝ)) (fun _ _ => 0) []).flatten.length
      = 400 :=
  (C7_persistence_image_resolution.1 (fun _ => (0 : ℝ)) (fun _ _ => 0) [[]]
    (persImage 20 20 (fun _ => 0) (fun _ _ => 0) [])
    (by simp [transform])).2.2

end PersIm

lemma getD_map_range {α : Type} {n j : ℕ} (f : ℕ → α) (d : α) (h : j < n) :
    ((List.range n).map f).getD j d = f j := by
  rw [List.getD_eq_getElem?_getD, List.getElem?_map, List.getElem?_range h]
  rfl

namespace GW

lemma padrand_length (V : List ℝ) (n : ℕ) (kr : ℝ) (cut : ℕ)
    (r1 r2 : ℕ → ℝ) (hcut : cut ≤ n) :
    (padrand V n kr cut r1 r2).length = V.length + n := by
  simp [padrand]
  omega

lemma ceil_div_of_dvd {a b : ℕ} (hb : 0 < b) (h : b ∣ a) :
    (a + b - 1) / b = a / b := by
  obtain ⟨q, rfl⟩ := h
  have h1 : b * q + b - 1 = (b - 1) + b * q := by omega
  rw [h1, show (b - 1) + b * q = (b - 1) + q * b from by ring,
    Nat.add_mul_div_right _ _ hb, Nat.div_eq_of_lt (by omega),
    show b * q = q * b from by ring, Nat.mul_div_cancel _ hb]
  omega

lemma signalGW_length (gw : GWFile) (ds j : ℕ) (hds : 0 < ds)
    (hdvd : ds ∣ (gw.data.getD 0 []).length) :
    (signalGW gw ds j).length = (gw.data.getD 0 []).length / ds := by
  rw [signalGW, List.length_map, pyRange0, List.length_map,
    List.length_range, ceil_div_of_dvd hds hdvd]

lemma noiseTerm_length (gw : GWFile) (R : GWRand) (r_min r_max : ℝ)
    (nsnr ds j : ℕ) :
    (noiseTerm gw R r_min r_max nsnr ds j).length =
      (gw.data.getD 0 []).length / ds := by
  simp [noiseTerm]

/-- C8: `make_gravitational_waves` keeps labels and signals consistent:
each label is 0 or 1; when the label is 1 the noisy signal is the padded
elementwise sum of the downsampled signal and the noise term, when it is 0
the padded noise term alone; and the clean downsampled signal
`gw["data"][j % Ndat]` is recorded in `gw_signals` regardless of the
label.  (The divisibility hypothesis scopes the statement to inputs where
numpy's `signal + noise` is defined, the two vectors having equal
length.) -/
theorem C8_labels_signals_consistent (gw : GWFile) (R : GWRand)
    (n_signals downsample_factor : ℕ) (r_min r_max : ℝ) (n_snr_values : ℕ)
    (hds : 0 < downsample_factor)
    (hdvd : downsample_factor ∣ (gw.data.getD 0 []).length)
    (j : ℕ) (hj : j < n_signals) :
    ((make_gravitational_waves gw R n_signals downsample_factor r_min r_max
        n_snr_values).2.2.getD j 0 = 0 ∨
      (make_gravitational_waves gw R n_signals downsample_factor r_min r_max
        n_snr_values).2.2.getD j 0 = 1) ∧
    ((make_gravitational_waves gw R n_signals downsample_factor r_min r_max
        n_snr_values).2.2.getD j 0 = 1 →
      (make_gravitational_waves gw R n_signals downsample_factor r_min r_max
        n_snr_values).1.getD j [] =
        padrand (List.zipWith (· + ·) (signalGW gw downsample_factor j)
            (noiseTerm gw R r_min r_max n_snr_values downsample_factor j))
          500 (ncoeff r_min r_max n_snr_values j) (R.cutR j) (R.pad1R j)
          (R.pad2R j)) ∧
    ((make_gravitational_waves gw R n_signals downsample_factor r_min r_max
        n_snr_values).2.2.getD j 0 = 0 →
      (make_gravitational_waves gw R n_signals downsample_factor r_min r_max
        n_snr_values).1.getD j [] =
        padrand (noiseTerm gw R r_min r_max n_snr_values downsample_factor j)
          500 (ncoeff r_min r_max n_snr_values j) (R.cutR j) (R.pad1R j)
          (R.pad2R j)) ∧
    (make_gravitational_waves gw R n_signals downsample_factor r_min r_max
        n_snr_values).2.1.getD j [] = signalGW gw downsample_factor j := by
  have hlab : (make_gravitational_waves gw R n_signals downsample_factor
      r_min r_max n_snr_values).2.2.getD j 0 = ((sigp R j : ℕ) : ℝ) := by
    rw [make_gravitational_waves]
    exact getD_map_range _ _ hj
  have hnoisy : (make_gravitational_waves gw R n_signals downsample_factor
      r_min r_max n_snr_values).1.getD j [] =
      (if sigp R j = 1 then
        padrand (List.zipWith (· + ·) (signalGW gw downsample_factor j)
            (noiseTerm gw R r_min r_max n_snr_values downsample_factor j))
          500 (ncoeff r_min r_max n_snr_values j) (R.cutR j) (R.pad1R j)
          (R.pad2R j)
      else
        padrand (noiseTerm gw R r_min r_max n_snr_values downsample_factor j)
          500 (ncoeff r_min r_max n_snr_values j) (R.cutR j) (R.pad1R j)
          (R.pad2R j)) := by
    rw [make_gravitational_waves]
    exact getD_map_range _ _ hj
  refine ⟨?_, ?_, ?_, ?_⟩
  · rw [hlab]
    by_cases h : R.sigpR j < 0 <;> simp [sigp, h]
  · intro h1
    rw [hlab] at h1
    have : sigp R j = 1 := by exact_mod_cast h1
    rw [hnoisy, if_pos this]
  · intro h0
    rw [hlab] at h0
    have h0' : sigp R j = 0 := by exact_mod_cast h0
    rw [hnoisy, if_neg (by omega)]
  · rw [make_gravitational_waves]
    exact getD_map_range _ _ hj

/-- Witness for C8 on a file with one stored raw signal of length 2,
constant-zero random oracles, one generated signal and downsampling
factor 2. -/
theorem C8_witness :
    (make_gravitational_waves ⟨[[0, 0]], [0]⟩
        ⟨fun _ => 0, fun _ _ => 0, fun _ => 0, fun _ _ => 0, fun _ _ => 0⟩
        1 2 0 0 1).2.1.getD 0 [] =
      signalGW ⟨[[0, 0]], [0]⟩ 2 0 :=
  (C8_labels_signals_consistent ⟨[[0, 0]], [0]⟩
      ⟨fun _ => 0, fun _ _ => 0, fun _ => 0, fun _ _ => 0, fun _ _ => 0⟩
      1 2 0 0 1 (by decide) (by decide) 0 (by decide)).2.2.2

/-- C9: under the precondition that `downsample_factor` divides `Norig`,
every noisy signal has length `Norig / downsample_factor + 500`; `padrand`
always pads to `len(V) + n`, splitting the `n` padding points at the
random cut; and both returned lists have length `n_signals`. -/
theorem C9_output_lengths (gw : GWFile) (R : GWRand)
    (n_signals downsample_factor : ℕ) (r_min r_max : ℝ) (n_snr_values : ℕ)
    (hds : 0 < downsample_factor)
    (hdvd : downsample_factor ∣ (gw.data.getD 0 []).length)
    (hcut : ∀ j, R.cutR j < 500) :
    (∀ (V : List ℝ) (n : ℕ) (kr : ℝ) (cut : ℕ) (r1 r2 : ℕ → ℝ), cut ≤ n →
      (padrand V n kr cut r1 r2).length = V.length + n) ∧
    (make_gravitational_waves gw R n_signals downsample_factor r_min r_max
      n_snr_values).1.length = n_signals ∧
    (make_gravitational_waves gw R n_signals downsample_factor r_min r_max
      n_snr_values).2.1.length = n_signals ∧
    (∀ s ∈ (make_gravitational_waves gw R n_signals downsample_factor r_min
        r_max n_snr_values).1,
      s.length = (gw.data.getD 0 []).length / downsample_factor + 500) := by
  refine ⟨fun V n kr cut r1 r2 hc => padrand_length V n kr cut r1 r2 hc,
    by simp [make_gravitational_waves], by simp [make_gravitational_waves],
    ?_⟩
  intro s hs
  rw [make_gravitational_waves] at hs
  obtain ⟨j, _, rfl⟩ := List.mem_map.mp hs
  by_cases h : sigp R j = 1
  · rw [if_pos h, padrand_length _ _ _ _ _ _ (le_of_lt (hcut j)),
      List.length_zipWith, signalGW_length gw _ j hds hdvd,
      noiseTerm_length, min_self]
  · rw [if_neg h, padrand_length _ _ _ _ _ _ (le_of_lt (hcut j)),
      noiseTerm_length]

/-- Witness for C9 on the same concrete file and oracles as C8. -/
theorem C9_witness :
    (make_gravitational_waves ⟨[[0, 0]], [0]⟩
        ⟨fun _ => 0, fun _ _ => 0, fun _ => 0, fun _ _ => 0, fun _ _ => 0⟩
        1 2 0 0 1).1.length = 1 := by
  exact (C9_output_lengths ⟨[[0, 0]], [0]⟩
      ⟨fun _ => 0, fun _ _ => 0, fun _ => 0, fun _ _ => 0, fun _ _ => 0⟩
      1 2 0 0 1 (by decide) (by decide)
      (by intro j; show (0 : ℕ) < 500; decide)).2.1

end GW

namespace Synth

lemma snr_points_eq : snr_points = 100 := by
  have h : snr * (npoints : ℚ) = ((100 : ℤ) : ℚ) := by
    norm_num [snr, npoints]
  rw [snr_points, h, Int.floor_intCast]
  rfl

lemma noise_length (N : ℕ) (scale : ℝ) (rand : ℕ → ℝ × ℝ) :
    (noise N scale rand).length = N := by
  simp [noise]

lemma noisy_sphere_length (npts : ℕ) (scale noiseLevel offset : ℝ)
    (g u2 : ℕ → ℝ × ℝ) :
    (noisy_sphere npts scale noiseLevel offset g u2).length = npts := by
  simp [noisy_sphere, sample_spherical]

lemma just_noise_length (O : SynthRand) :
    (just_noise O).length = samples_per_class := by
  simp [just_noise]

/-- C10: `datas` holds exactly `total_samples` point clouds of exactly
`npoints` points each (every `with_circle` sample concatenating
`int(snr*npoints) = 100` circle points with the remaining 300 noise
points); the first `samples_per_class` entries are the pure-noise samples
and the last `samples_per_class` the circle samples; and `labels i = 1`
exactly when `i ≥ samples_per_class`. -/
theorem C10_dataset_invariants (O : SynthRand) :
    (datas O).length = total_samples ∧
    (∀ c ∈ datas O, c.length = npoints) ∧
    (∀ i : ℕ, i < samples_per_class →
      (datas O).getD i [] = noise npoints noise_scale (O.noiseR i)) ∧
    (∀ i : ℕ, samples_per_class ≤ i → i < total_samples →
      (datas O).getD i [] =
        noisy_sphere snr_points circle_scale circle_noise_level
            ((0.2 * O.offsetR (i - samples_per_class) + 0.4) * noise_scale)
            (O.circleN (i - samples_per_class))
            (O.circleU (i - samples_per_class))
          ++ noise (npoints - snr_points) noise_scale
            (O.noise2R (i - samples_per_class))) ∧
    (∀ i : Fin total_samples, labels i = 1 ↔ samples_per_class ≤ i.1) ∧
    snr_points = 100 ∧ npoints - snr_points = 300 := by
  refine ⟨?_, ?_, ?_, ?_, ?_, snr_points_eq, by rw [snr_points_eq]; decide⟩
  · simp [datas, just_noise, with_circle, total_samples, samples_per_class]
  · intro c hc
    rw [datas, List.mem_append] at hc
    rcases hc with hc | hc
    · obtain ⟨s, _, rfl⟩ := List.mem_map.mp hc
      exact noise_length _ _ _
    · obtain ⟨s, _, rfl⟩ := List.mem_map.mp hc
      rw [List.length_append, noisy_sphere_length, noise_length,
        snr_points_eq]
      decide
  · intro i hi
    rw [datas, List.getD_append _ _ _ _ (by rw [just_noise_length]; exact hi),
      just_noise]
    exact getD_map_range _ _ hi
  · intro i hi1 hi2
    rw [datas, List.getD_append_right _ _ _ _
        (by rw [just_noise_length]; exact hi1),
      just_noise_length, with_circle]
    refine getD_map_range _ _ ?_
    have h2 : total_samples = 2 * samples_per_class := by decide
    omega
  · intro i
    by_cases h : samples_per_class ≤ i.1 <;> simp [labels, h]

/-- Witness for C10: the first entry of `datas` under constant-zero
oracles is the first pure-noise sample. -/
theorem C10_witness :
    (datas ⟨fun _ _ => (0, 0), fun _ _ => (0, 0), fun _ _ => (0, 0),
        fun _ => 0, fun _ _ => (0, 0)⟩).getD 0 [] =
      noise npoints noise_scale (fun _ => ((0 : ℝ), (0 : ℝ))) :=
  (C10_dataset_invariants ⟨fun _ _ => (0, 0), fun _ _ => (0, 0),
      fun _ _ => (0, 0), fun _ => 0, fun _ _ => (0, 0)⟩).2.2.1 0 (by decide)

end Synth

